import Mathlib

/-!
Verification of the price-provider repository core against its specification.

This file is a shallow embedding, in Lean 4, of the parts of the Go source
that the checked properties concern:

* the cross-provider quote normalization and aggregation algorithm
  (package aggregate: NormalizeSource, LatestByMarket);
* the TTL cache decorator (internal/provider/cache);
* the adaptive batch splitting and retry engine (cmd/steamdt_dump, fetchSplit);
* the refresh-coalescing payload cache commit step (skinstablexyz provider);
* the token-bucket rate limiter (internal/provider/ratelimit).

Modelling conventions:

* Go time.Time values are modelled as natural numbers (an abstract tick count,
  e.g. nanoseconds since the epoch); the Go zero time corresponds to 0,
  t1.After(t2) to t1 > t2, t1.Equal(t2) to t1 = t2, and t.IsZero() to t = 0.
  Each call to time.Now() inside a Go function becomes an explicit parameter.
* Go float64 arithmetic on token counts is modelled over the rationals, the
  idealization the spec itself uses (a real number in an interval).
* Effectful upstream calls become explicit function parameters that map a
  request to a result (a deterministic upstream, which is what the claims
  quantify over); fallible Go returns (data, err) become Except values.
* Go maps are modelled as functions to Option plus, where iteration order
  matters, an explicit first-insertion key order.  Go map iteration order is
  unspecified; this embedding fixes first-insertion order as one canonical
  refinement and notes where a conclusion depends on that choice.
* Go strings are Lean strings; strings.Split / TrimSpace / ToLower are
  re-implemented below on character lists so that they compute by structural
  recursion (TrimSpace and ToLower over the ASCII and Latin-1 range that the
  repository's data uses).
-/

namespace PriceProvider

/-! ## String primitives (Go strings package, as used by the source) -/

/-- Whitespace predicate of Go unicode.IsSpace restricted to the Latin-1
range: tab, newline, vertical tab, form feed, carriage return, space,
next line (U+0085) and no-break space (U+00A0). -/
def goIsSpace (c : Char) : Bool :=
  c.toNat = 0x20 || c.toNat = 0x09 || c.toNat = 0x0A || c.toNat = 0x0B ||
  c.toNat = 0x0C || c.toNat = 0x0D || c.toNat = 0x85 || c.toNat = 0xA0

/-- Go strings.TrimSpace: drop leading and trailing whitespace. -/
def goTrim (s : String) : String :=
  String.mk (((s.toList.dropWhile goIsSpace).reverse.dropWhile goIsSpace).reverse)

/-- Lower-case one character (ASCII range; Go strings.ToLower is
Unicode-aware but the repository only feeds it ASCII market names). -/
def goLowerChar (c : Char) : Char :=
  if 65 ≤ c.toNat ∧ c.toNat ≤ 90 then Char.ofNat (c.toNat + 32) else c

/-- Go strings.ToLower (ASCII range). -/
def goToLower (s : String) : String :=
  String.mk (s.toList.map goLowerChar)

/-- Split a character list at every occurrence of the separator character,
keeping empty fields; splitting the empty list yields one empty field,
matching Go strings.Split which never returns an empty slice. -/
def splitCh (sep : Char) : List Char → List (List Char)
  | [] => [[]]
  | c :: cs =>
    match splitCh sep cs with
    | [] => [[]]
    | r :: rs => if c = sep then [] :: r :: rs else (c :: r) :: rs

/-- Go strings.Split with a single-character separator (the source only
splits on a colon). -/
def goSplit (s : String) (sep : Char) : List String :=
  (splitCh sep s.toList).map String.mk

/-! ## Data model (internal/provider and package aggregate) -/

/-- Quote is the normalized shape returned by all providers
(internal/provider, struct Quote).  ReceivedAt models time.Time;
0 is the Go zero time. -/
structure Quote where
  Symbol : String
  Price : String
  Currency : String
  Source : String
  ReceivedAt : Nat
deriving DecidableEq, Repr

/-- MarketKey identifies a normalized market quote bucket
(package aggregate). -/
structure MarketKey where
  Symbol : String
  Market : String
  Side : String
  Currency : String
deriving DecidableEq, Repr

/-- Latest is the latest quote per MarketKey (package aggregate). -/
structure Latest where
  Symbol : String
  Market : String
  Side : String
  Currency : String
  Price : String
  Provider : String
  ReceivedAt : Nat
deriving DecidableEq, Repr

/-! ## NormalizeSource (package aggregate) -/

/-- The market alias table aliasMap of package aggregate, as a lookup
function (the Go map literal is only ever read). -/
def aliasMap (s : String) : Option String :=
  if s = "buff" then some "BUFF"
  else if s = "buff.163" then some "BUFF"
  else if s = "buff163" then some "BUFF"
  else if s = "steam" then some "Steam"
  else if s = "c5" then some "C5GAME"
  else if s = "c5game" then some "C5GAME"
  else if s = "csmoney" then some "CS.MONEY"
  else if s = "cs.money" then some "CS.MONEY"
  else if s = "skinport" then some "Skinport"
  else none

/-- NormalizeSource extracts market and side from a quote Source
(package aggregate).  Mirrors the Go switch on the lower-cased first
colon-separated field; the trailing side-validation if-statement in the
source has two empty branches and is a no-op, so the lower-cased trimmed
side is returned verbatim. -/
def NormalizeSource (src : String) : String × String :=
  let s := goTrim src
  if s = "" then ("", "")
  else
    let parts := goSplit s ':'
    -- In Go, strings.Split never returns an empty slice, so the
    -- len(parts) == 0 guard of the source is dead code; kept for fidelity.
    if parts.length = 0 then ("", "")
    else
      let p0 := goTrim (parts.getD 0 "")
      let lp0 := goToLower p0
      let mraw : String :=
        if lp0 = "steamdt" then (if parts.length ≥ 2 then parts.getD 1 "" else "")
        else if lp0 = "pricempire" || lp0 = "skinstablexyz" then
          (if parts.length ≥ 2 then parts.getD 1 "" else "")
        else (if parts.length ≥ 2 then parts.getD 1 "" else "")
      let sraw : String :=
        if lp0 = "steamdt" then (if parts.length ≥ 3 then parts.getD 2 "" else "")
        else if lp0 = "pricempire" || lp0 = "skinstablexyz" then ""
        else (if parts.length ≥ 3 then parts.getD 2 "" else "")
      let m := goTrim mraw
      let market := (aliasMap (goToLower m)).getD m
      let side := goToLower (goTrim sraw)
      (market, side)

/-! ## LatestByMarket (package aggregate) -/

/-- The provider name extracted inside the LatestByMarket loop: the text
before the first colon of Source when that colon exists at a positive
index, otherwise the whole Source. -/
def sourceProvider (src : String) : String :=
  match src.toList.findIdx? (fun c => c = ':') with
  | some i => if 0 < i then String.mk (src.toList.take i) else src
  | none => src

/-- The effective timestamp used for comparison: a zero ReceivedAt is
replaced by the current processing time now. -/
def effTs (now : Nat) (q : Quote) : Nat :=
  if q.ReceivedAt = 0 then now else q.ReceivedAt

/-- The grouping key computed for a quote in the LatestByMarket loop;
side is forced to the empty string when includeSides is false. -/
def qkey (includeSides : Bool) (q : Quote) : MarketKey :=
  let ms := NormalizeSource q.Source
  { Symbol := q.Symbol, Market := ms.1
    Side := if includeSides then ms.2 else "", Currency := q.Currency }

/-- The Latest row the loop builds from a quote. -/
def mkLatest (now : Nat) (includeSides : Bool) (q : Quote) : Latest :=
  let ms := NormalizeSource q.Source
  { Symbol := q.Symbol, Market := ms.1
    Side := if includeSides then ms.2 else "", Currency := q.Currency
    Price := q.Price, Provider := sourceProvider q.Source
    ReceivedAt := effTs now q }

/-- One iteration of the LatestByMarket loop, acting on the latest map
modelled as a function from keys to optional rows.  The in-map row is
replaced when ts.After(cur.ReceivedAt) or ts.Equal(cur.ReceivedAt),
that is when the effective timestamp is newer or exactly equal. -/
def updLatest (now : Nat) (b : Bool) (m : MarketKey → Option Latest) (q : Quote) :
    MarketKey → Option Latest :=
  fun k =>
    if k = qkey b q then
      match m (qkey b q) with
      | some cur =>
        if cur.ReceivedAt < effTs now q ∨ effTs now q = cur.ReceivedAt then
          some (mkLatest now b q)
        else some cur
      | none => some (mkLatest now b q)
    else m k

/-- The latest map after the whole loop. -/
def latestMap (now : Nat) (b : Bool) (quotes : List Quote) :
    MarketKey → Option Latest :=
  quotes.foldl (updLatest now b) (fun _ => none)

/-- One step of key-order bookkeeping: record the key of a processed
quote the first time it is seen. -/
def keysStep (b : Bool) (ks : List MarketKey) (q : Quote) : List MarketKey :=
  if qkey b q ∈ ks then ks else ks ++ [qkey b q]

/-- The keys of the latest map in first-insertion order.  Go map
iteration order is unspecified; this is the canonical order this
embedding uses when the map is flattened to the output slice. -/
def keysInOrder (b : Bool) (quotes : List Quote) : List MarketKey :=
  quotes.foldl (keysStep b) []

/-- The strict comparison function passed to sort.Slice by the source:
lexicographic on Symbol, then Market, then Side. -/
def lessLatest (a c : Latest) : Bool :=
  if a.Symbol ≠ c.Symbol then decide (a.Symbol < c.Symbol)
  else if a.Market ≠ c.Market then decide (a.Market < c.Market)
  else if a.Side ≠ c.Side then decide (a.Side < c.Side)
  else false

/-- The non-strict relation induced by lessLatest; a list sorted by
sort.Slice with less is exactly a list pairwise-ordered by this
relation. -/
def latestLE (a c : Latest) : Prop := lessLatest c a = false

instance : DecidableRel latestLE := fun a c => by
  unfold latestLE; infer_instance

/-- LatestByMarket collapses quotes by (Symbol, Market, Side?, Currency)
keeping the newest (package aggregate).  now stands for the
time.Now().UTC() the Go function takes at entry.  The Go map is
flattened in first-insertion key order (one fixed refinement of Go's
unspecified map iteration order) and then sorted with the source's
comparator; insertionSort plays the role of sort.Slice. -/
def LatestByMarket (now : Nat) (quotes : List Quote) (includeSides : Bool) :
    List Latest :=
  let m := latestMap now includeSides quotes
  let out := (keysInOrder includeSides quotes).filterMap m
  List.insertionSort latestLE out

/-! ## Analysis helpers for the LatestByMarket loop

The definitions here and the lemmas in the theorem section characterize the loop invariant of the Go for-range: the
map entry at a key is determined by the sub-sequence of input quotes that
hash to that key, and the surviving row is the one built from the last
quote attaining the maximal effective timestamp. -/

/-- The sub-sequence of input quotes grouped under key k, in input
iteration order. -/
def groupOf (b : Bool) (k : MarketKey) (l : List Quote) : List Quote :=
  l.filter (fun q => decide (qkey b q = k))

/-- One conflict-resolution step on an optional current row: exactly the
body of the if/else in the LatestByMarket loop at the quote's own key. -/
def rowStep (now : Nat) (b : Bool) (cur : Option Latest) (q : Quote) : Option Latest :=
  match cur with
  | some c =>
    if c.ReceivedAt < effTs now q ∨ effTs now q = c.ReceivedAt then
      some (mkLatest now b q)
    else some c
  | none => some (mkLatest now b q)

/-- The quote-level conflict-resolution step: the incoming quote wins
exactly when its effective timestamp is at least the incumbent's. -/
def pickQ (now : Nat) (a q : Quote) : Quote :=
  if effTs now a < effTs now q ∨ effTs now q = effTs now a then q else a

/-- The winning quote of a group with incumbent a. -/
def winnerQ (now : Nat) (a : Quote) (g : List Quote) : Quote :=
  g.foldl (pickQ now) a

/-- An hour of model time: time.Time is modelled in nanoseconds. -/
def oneHour : Nat := 3600000000000

/-- The sort key of a Latest row for the source's comparator: the
lexicographic triple (Symbol, Market, Side). -/
def lexKey (a : Latest) : String ×ₗ (String ×ₗ String) :=
  toLex (a.Symbol, toLex (a.Market, a.Side))

/-- The rows of the latest map, flattened in first-insertion key order
(the slice the source sorts). -/
def outRows (now : Nat) (b : Bool) (l : List Quote) : List Latest :=
  (keysInOrder b l).filterMap (latestMap now b l)

/-! ## TTL cache decorator (internal/provider/cache)

The cache map items is modelled as an association list in a canonical
(insertion) order; lookups and in-place replacement match the Go map, and
the eviction loops walk this canonical order (one refinement of the
unspecified Go map iteration order).  The wrapped provider is a function
parameter; the two distinct time.Now() readings of the Go method (the one
taken at entry and the ones inside the eviction loop) are the parameters
now and evictNow. -/

/-- A cache entry: quotes for one symbol plus an expiry instant. -/
structure CEntry where
  expiresAt : Nat
  quotes : List Quote
deriving DecidableEq, Repr

/-- Map lookup on the association-list model of the Go map. -/
def itemsFind (items : List (String × CEntry)) (s : String) : Option CEntry :=
  (items.find? (fun p => decide (p.1 = s))).map Prod.snd

/-- Map assignment: replace the existing binding or append a new one. -/
def itemsInsert : List (String × CEntry) → String → CEntry → List (String × CEntry)
  | [], s, e => [(s, e)]
  | (k, v) :: t, s, e => if k = s then (s, e) :: t else (k, v) :: itemsInsert t s e

/-- First-occurrence deduplication, preserving order (the seen-set loop of
the Go method). -/
def dedupFO (l : List String) : List String :=
  l.foldl (fun acc s => if s ∈ acc then acc else acc ++ [s]) []

/-- Does symbol s have a valid (unexpired) cache entry at time now
(the ok and now.Before(e.expiresAt) test of the Go method)? -/
def cacheValid (items : List (String × CEntry)) (now : Nat) (s : String) : Bool :=
  match itemsFind items s with
  | some e => decide (now < e.expiresAt)
  | none => false

/-- The quotes served from valid cache entries, in request order with
multiplicity (the cached slice built by the first loop). -/
def cachedQuotes (items : List (String × CEntry)) (now : Nat)
    (symbols : List String) : List Quote :=
  symbols.flatMap (fun s =>
    match itemsFind items s with
    | some e => if now < e.expiresAt then e.quotes else []
    | none => [])

/-- The deduplicated list of symbols lacking a valid entry, preserving
request order (the missing slice). -/
def missingList (items : List (String × CEntry)) (now : Nat)
    (symbols : List String) : List String :=
  dedupFO (symbols.filter (fun s => ! cacheValid items now s))

/-- First eviction pass: walk the map deleting expired entries, stopping
as soon as the size bound holds (checked after every iteration, matching
the Go loop, which is entered only when the size exceeds the cap). -/
def evictExpired (evictNow maxI : Nat) : List (String × CEntry) → Nat → List (String × CEntry)
  | [], _ => []
  | (k, v) :: t, size =>
    if evictNow > v.expiresAt then
      if size - 1 ≤ maxI then t
      else evictExpired evictNow maxI t (size - 1)
    else
      if size ≤ maxI then (k, v) :: t
      else (k, v) :: evictExpired evictNow maxI t size

/-- Second eviction pass: delete entries in iteration order until the
size bound holds (bound checked before each deletion). -/
def evictAny (maxI : Nat) : List (String × CEntry) → Nat → List (String × CEntry)
  | [], _ => []
  | (k, v) :: t, size =>
    if size ≤ maxI then (k, v) :: t
    else evictAny maxI t (size - 1)

/-- Fetch of the TTL cache decorator (cache.Provider.Fetch): serve valid
cached symbols, fetch only the missing ones from the wrapped provider
inner, degrade to cached data when inner fails, store fresh results with
a uniform new expiry, cap the cache size and merge the output in request
order.  Returns the result and the updated cache map. -/
def cacheFetch {eps : Type} (inner : List String → Except eps (List Quote))
    (ttl maxItems : Int) (items : List (String × CEntry)) (now evictNow : Nat)
    (symbols : List String) :
    Except eps (List Quote) × List (String × CEntry) :=
  if ttl ≤ 0 then (inner symbols, items)
  else
    let cached := cachedQuotes items now symbols
    if symbols.filter (fun s => ! cacheValid items now s) = [] then
      (.ok cached, items)
    else
      let missing := missingList items now symbols
      match inner missing with
      | .error e =>
        if 0 < cached.length then (.ok cached, items) else (.error e, items)
      | .ok fresh =>
        let bySymbol := fun s => fresh.filter (fun q => decide (q.Symbol = s))
        let freshSyms := dedupFO (fresh.map (fun q => q.Symbol))
        let expiry := now + ttl.toNat
        let items1 := freshSyms.foldl
          (fun acc s => itemsInsert acc s ⟨expiry, bySymbol s⟩) items
        let items2 :=
          if 0 < maxItems ∧ maxItems.toNat < items1.length then
            evictAny maxItems.toNat
              (evictExpired evictNow maxItems.toNat items1 items1.length)
              (evictExpired evictNow maxItems.toNat items1 items1.length).length
          else items1
        let out := symbols.flatMap (fun s =>
          if bySymbol s ≠ [] then bySymbol s
          else
            match itemsFind items2 s with
            | some e => if now < e.expiresAt then e.quotes else []
            | none => [])
        (.ok out, items2)

/-! ## Adaptive batch splitting and retry engine (cmd/steamdt_dump)

fetchSplit is embedded over a deterministic upstream req (the effectful
doReq becomes a function of the request, which is the setting the checked
properties quantify over); json.RawMessage entries are abstracted as
strings.  Besides the (data, error) result, the embedding also returns
the list of issued batch requests, instrumenting the upstream calls that
the Go code performs as side effects of doReq, so that statements about
retry counts can be made.  The errorsAs test of the source matches
exactly the http constructor of GoErr. -/

/-- An error of the dump tool: an HTTP status error (httpStatusErr) or
any other error (network, decode, ...). -/
inductive GoErr where
  | http (code : Nat) (body : String)
  | other (msg : String)
deriving DecidableEq, Repr

/-- The recursive splitter fetchSplit of cmd/steamdt_dump: on success
return the data; on status 400/413 split the batch at the midpoint and
recurse on both halves (a single-name batch is skipped, returning no
data and no error); on status 429/5xx retry the same batch up to mr
times (the backoff sleep has no observable effect in this embedding);
on any other error fail immediately.  The second component is the trace
of issued batch requests. -/
def fetchSplit (mr : Nat) (req : List String → Except GoErr (List String))
    (names : List String) (attempt : Nat) :
    Except GoErr (List String) × List (List String) :=
  match req names with
  | .ok d => (.ok d, [names])
  | .error err =>
    match err with
    | .http code body =>
      if code = 400 ∨ code = 413 then
        if _h1 : names.length ≤ 1 then (.ok [], [names])
        else
          let lres := fetchSplit mr req (names.take (names.length / 2)) 0
          let rres := fetchSplit mr req (names.drop (names.length / 2)) 0
          let tr := names :: (lres.2 ++ rres.2)
          match lres.1 with
          | .error le => (.error le, tr)
          | .ok ld =>
            match rres.1 with
            | .error re => (.error re, tr)
            | .ok rd => (.ok (ld ++ rd), tr)
      else if code = 429 ∨ (500 ≤ code ∧ code < 600) then
        if _h2 : attempt < mr then
          let r := fetchSplit mr req names (attempt + 1)
          (r.1, names :: r.2)
        else (.error (.http code body), [names])
      else (.error (.http code body), [names])
    | .other m => (.error (.other m), [names])
termination_by (names.length, mr - attempt)
decreasing_by
  · simp [List.length_take]
    left
    omega
  · simp [List.length_drop]
    left
    omega
  · right
    omega

/-- An upstream that deterministically rejects every batch larger than K
with the given status code and answers any batch of size at most K with
the entries f names. -/
def sizeOracle (K code : Nat) (f : List String → List String)
    (names : List String) : Except GoErr (List String) :=
  if K < names.length then .error (.http code "batch too large") else .ok (f names)

/-- The surviving sub-batches of the bisection tree: batches of size at
most K survive; a rejected batch of one name is dropped; larger batches
split at the midpoint. -/
def leafBatches (K : Nat) (names : List String) : List (List String) :=
  if names.length ≤ K then [names]
  else if _h1 : names.length ≤ 1 then []
  else leafBatches K (names.take (names.length / 2)) ++
    leafBatches K (names.drop (names.length / 2))
termination_by names.length
decreasing_by
  · simp [List.length_take]
    omega
  · simp [List.length_drop]
    omega

/-- The upstream of the C6 counterexample: the two-name batch is rejected
as oversized, the first name succeeds with one entry, the second name is
throttled on every attempt. -/
def reqC6 : List String → Except GoErr (List String) := fun names =>
  if names = ["a", "b"] then .error (.http 400 "too big")
  else if names = ["a"] then .ok ["ea"]
  else .error (.http 429 "throttled")

/-! ## Refresh-coalescing payload cache (skinstablexyz provider)

Only the per-site refresh/commit step carries the checked property; the
payload (the items map) is payload-agnostic for this logic and is
abstracted as a type parameter.  Concurrency is modelled by letting the
cache state at commit time differ from the snapshot read before the
refresh: a concurrent writer may have replaced the entry while the
coalesced upstream call was in flight. -/

/-- A per-site cache entry: the items payload and its expiry instant
(siteCache of the skinstablexyz provider; the Go field named until is
rendered untilT because until is reserved in Lean). -/
structure SiteCache (α : Type) where
  items : α
  untilT : Nat
deriving DecidableEq, Repr

/-- The commit step guarded by a re-check under the write lock: write the
refresh result only if the entry is still missing or expired at commit
time (the if !ok2 or time.Now().After(sc2.untilT) block). -/
def commitSite {α : Type} (cache : String → Option (SiteCache α)) (site : String)
    (commitNow : Nat) (res : SiteCache α) : String → Option (SiteCache α) :=
  match cache site with
  | none => fun s => if s = site then some res else cache s
  | some sc2 =>
    if commitNow > sc2.untilT then fun s => if s = site then some res else cache s
    else cache

/-- One per-site iteration of the coalescing Fetch: read a snapshot, and
if the entry is missing or expired run the (coalesced) refresh; on
refresh success commit through commitSite against the possibly newer
commit-time state; on refresh failure record the error and leave the
cache alone. -/
def refreshSite {α eps : Type} (cacheAtRead : String → Option (SiteCache α))
    (readNow : Nat) (site : String) (refresh : Except eps (SiteCache α))
    (cacheAtCommit : String → Option (SiteCache α)) (commitNow : Nat) :
    (String → Option (SiteCache α)) × Option eps :=
  let expired :=
    match cacheAtRead site with
    | none => true
    | some sc => decide (readNow > sc.untilT)
  if expired then
    match refresh with
    | .error e => (cacheAtCommit, some e)
    | .ok res => (commitSite cacheAtCommit site commitNow res, none)
  else (cacheAtCommit, none)

/-! ## Token bucket rate limiter (internal/provider/ratelimit)

The float64 token arithmetic is modelled over the rationals, the
idealization the spec uses (a real number in an interval); times are
rationals (seconds).  Each pass of the wait loop reads the clock once,
refills, and either takes a token (success) or computes a sleep and
retries; a pass is one waitStep with an arbitrary monotone-free clock
value, so the invariant is proved against any sequence of clock
readings. -/

/-- TokenBucket state (struct TokenBucket). -/
structure TokenBucket where
  rate : ℚ
  capacity : ℚ
  tokens : ℚ
  last : ℚ
deriving DecidableEq, Repr

/-- NewTokenBucket: guard non-positive arguments, then start full (the
bucket begins with tokens = capacity) with the creation time as the
last-refill instant. -/
def NewTokenBucket (tokensPerSecond : ℚ) (burst : Int) (now : ℚ) : TokenBucket :=
  let r := if tokensPerSecond ≤ 0 then 1 / 10000000 else tokensPerSecond
  let b : Int := if burst ≤ 0 then 1 else burst
  { rate := r, capacity := (b : ℚ), tokens := (b : ℚ), last := now }

/-- The refill step of wait: add elapsed times rate, clamp to capacity,
remember the refill instant; a non-positive elapsed time changes
nothing. -/
def refill (tb : TokenBucket) (now : ℚ) : TokenBucket :=
  let elapsed := now - tb.last
  if 0 < elapsed then
    let t := tb.tokens + elapsed * tb.rate
    { tb with tokens := if tb.capacity < t then tb.capacity else t, last := now }
  else tb

/-- One pass of the wait loop: refill, then take a token when at least
one is available (true), otherwise leave the state for the next pass
after the computed sleep (false). -/
def waitStep (tb : TokenBucket) (now : ℚ) : TokenBucket × Bool :=
  let tb2 := refill tb now
  if 1 ≤ tb2.tokens then ({ tb2 with tokens := tb2.tokens - 1 }, true)
  else (tb2, false)

/-- The bucket state after a sequence of wait-loop passes at the given
clock readings. -/
def runSteps (tb : TokenBucket) (nows : List ℚ) : TokenBucket :=
  nows.foldl (fun s n => (waitStep s n).1) tb

/-- The bucket invariant: tokens within bounds, a usable capacity, and a
positive refill rate. -/
def BucketInv (tb : TokenBucket) : Prop :=
  0 ≤ tb.tokens ∧ tb.tokens ≤ tb.capacity ∧ 1 ≤ tb.capacity ∧ 0 < tb.rate

/-! ## Theorems -/

theorem updLatest_eq_of_key {now : Nat} {b : Bool} {m : MarketKey → Option Latest}
    {q : Quote} {k : MarketKey} (h : qkey b q = k) :
    updLatest now b m q k = rowStep now b (m k) q := by
  subst h
  simp [updLatest, rowStep]

theorem updLatest_eq_of_ne {now : Nat} {b : Bool} {m : MarketKey → Option Latest}
    {q : Quote} {k : MarketKey} (h : ¬ qkey b q = k) :
    updLatest now b m q k = m k := by
  unfold updLatest
  rw [if_neg]
  intro hk
  exact h hk.symm

/-- The loop-invariant lemma: the latest map at key k is the fold of the
conflict-resolution step over the group of k, independent of all quotes
outside the group. -/
theorem latestMap_eq_groupFold (now : Nat) (b : Bool) (l : List Quote) (k : MarketKey) :
    latestMap now b l k = (groupOf b k l).foldl (rowStep now b) none := by
  suffices h : ∀ (m : MarketKey → Option Latest),
      (l.foldl (updLatest now b) m) k = (groupOf b k l).foldl (rowStep now b) (m k) by
    exact h (fun _ => none)
  induction l with
  | nil => intro m; rfl
  | cons q t ih =>
    intro m
    by_cases hk : qkey b q = k
    · have hg : groupOf b k (q :: t) = q :: groupOf b k t := by
        simp [groupOf, hk]
      rw [List.foldl_cons, ih, hg, List.foldl_cons, updLatest_eq_of_key hk]
    · have hg : groupOf b k (q :: t) = groupOf b k t := by
        simp [groupOf, hk]
      rw [List.foldl_cons, ih, hg, updLatest_eq_of_ne hk]

theorem rowStep_some (now : Nat) (b : Bool) (a q : Quote) :
    rowStep now b (some (mkLatest now b a)) q = some (mkLatest now b (pickQ now a q)) := by
  show (if (mkLatest now b a).ReceivedAt < effTs now q ∨
      effTs now q = (mkLatest now b a).ReceivedAt then
      some (mkLatest now b q) else some (mkLatest now b a)) = _
  have hra : (mkLatest now b a).ReceivedAt = effTs now a := rfl
  rw [hra]
  unfold pickQ
  by_cases h : effTs now a < effTs now q ∨ effTs now q = effTs now a
  · rw [if_pos h, if_pos h]
  · rw [if_neg h, if_neg h]

theorem groupFold_eq_winnerQ (now : Nat) (b : Bool) (a : Quote) (g : List Quote) :
    g.foldl (rowStep now b) (some (mkLatest now b a)) =
      some (mkLatest now b (winnerQ now a g)) := by
  induction g generalizing a with
  | nil => rfl
  | cons q t ih =>
    rw [List.foldl_cons, rowStep_some, ih]
    rfl

/-- On a non-empty group the fold yields the row of the winning quote. -/
theorem groupFold_cons (now : Nat) (b : Bool) (q : Quote) (g : List Quote) :
    (q :: g).foldl (rowStep now b) none = some (mkLatest now b (winnerQ now q g)) := by
  rw [List.foldl_cons]
  exact groupFold_eq_winnerQ now b q g

/-- The winner is a member of the group, attains the maximal effective
timestamp, and every group member processed after it is strictly older:
on equal timestamps the later-processed quote wins. -/
theorem winnerQ_spec (now : Nat) (a : Quote) (g : List Quote) :
    ∃ g₁ g₂, a :: g = g₁ ++ winnerQ now a g :: g₂ ∧
      (∀ x ∈ a :: g, effTs now x ≤ effTs now (winnerQ now a g)) ∧
      (∀ x ∈ g₂, effTs now x < effTs now (winnerQ now a g)) := by
  induction g using List.reverseRecOn with
  | nil =>
    refine ⟨[], [], rfl, ?_, by simp⟩
    intro x hx
    have hx' : x = a := by simpa using hx
    subst hx'
    exact Nat.le_refl _
  | append_singleton t x ih =>
    obtain ⟨g₁, g₂, hsplit, hmax, hafter⟩ := ih
    have hw : winnerQ now a (t ++ [x]) = pickQ now (winnerQ now a t) x := by
      unfold winnerQ
      rw [List.foldl_append]
      rfl
    by_cases hc : effTs now (winnerQ now a t) < effTs now x ∨
        effTs now x = effTs now (winnerQ now a t)
    · refine ⟨a :: t, [], ?_, ?_, by simp⟩
      · rw [hw, pickQ, if_pos hc]
        simp
      · intro y hy
        rw [hw, pickQ, if_pos hc]
        have hy' : y = a ∨ y ∈ t ∨ y = x := by simpa using hy
        have hwx : effTs now (winnerQ now a t) ≤ effTs now x := by
          rcases hc with h | h
          · exact Nat.le_of_lt h
          · omega
        rcases hy' with h | h | h
        · exact le_trans (hmax y (by simp [h])) hwx
        · exact le_trans (hmax y (by simp [h])) hwx
        · subst h
          exact Nat.le_refl _
    · have hlt : effTs now x < effTs now (winnerQ now a t) := by
        push_neg at hc
        omega
      refine ⟨g₁, g₂ ++ [x], ?_, ?_, ?_⟩
      · rw [hw, pickQ, if_neg hc]
        rw [show a :: (t ++ [x]) = (a :: t) ++ [x] by simp, hsplit]
        simp
      · intro y hy
        rw [hw, pickQ, if_neg hc]
        have hy' : y = a ∨ y ∈ t ∨ y = x := by simpa using hy
        rcases hy' with h | h | h
        · exact hmax y (by simp [h])
        · exact hmax y (by simp [h])
        · subst h
          exact Nat.le_of_lt hlt
      · intro y hy
        rw [hw, pickQ, if_neg hc]
        rcases List.mem_append.1 hy with hy' | hy'
        · exact hafter y hy'
        · have h : y = x := by simpa using hy'
          subst h
          exact hlt

theorem mem_keysFold (b : Bool) (l : List Quote) (acc : List MarketKey) (k : MarketKey) :
    k ∈ l.foldl (keysStep b) acc ↔ k ∈ acc ∨ ∃ q ∈ l, qkey b q = k := by
  induction l generalizing acc with
  | nil => simp
  | cons q t ih =>
    rw [List.foldl_cons, ih]
    unfold keysStep
    by_cases hq : qkey b q ∈ acc
    · rw [if_pos hq]
      constructor
      · rintro (h | h)
        · exact Or.inl h
        · exact Or.inr (by simpa using Or.inr h)
      · rintro (h | ⟨r, hr, hk⟩)
        · exact Or.inl h
        · rcases List.mem_cons.1 hr with h | h
          · subst h; subst hk; exact Or.inl hq
          · exact Or.inr ⟨r, h, hk⟩
    · rw [if_neg hq]
      constructor
      · rintro (h | h)
        · rcases List.mem_append.1 h with h' | h'
          · exact Or.inl h'
          · have : k = qkey b q := by simpa using h'
            exact Or.inr ⟨q, by simp, this.symm⟩
        · exact Or.inr (by simpa using Or.inr h)
      · rintro (h | ⟨r, hr, hk⟩)
        · exact Or.inl (List.mem_append.2 (Or.inl h))
        · rcases List.mem_cons.1 hr with h | h
          · subst h; subst hk
            exact Or.inl (List.mem_append.2 (Or.inr (by simp)))
          · exact Or.inr ⟨r, h, hk⟩

theorem mem_keysInOrder (b : Bool) (l : List Quote) (k : MarketKey) :
    k ∈ keysInOrder b l ↔ ∃ q ∈ l, qkey b q = k := by
  rw [keysInOrder, mem_keysFold]
  simp

theorem nodup_keysFold (b : Bool) (l : List Quote) (acc : List MarketKey)
    (hacc : acc.Nodup) : (l.foldl (keysStep b) acc).Nodup := by
  induction l generalizing acc with
  | nil => exact hacc
  | cons q t ih =>
    rw [List.foldl_cons]
    apply ih
    unfold keysStep
    by_cases hq : qkey b q ∈ acc
    · rwa [if_pos hq]
    · rw [if_neg hq]
      simpa [List.nodup_append] using ⟨hacc, hq⟩

theorem nodup_keysInOrder (b : Bool) (l : List Quote) : (keysInOrder b l).Nodup :=
  nodup_keysFold b l [] List.nodup_nil

/-- Every group member is an input quote with that key. -/
theorem mem_groupOf {b : Bool} {k : MarketKey} {l : List Quote} {q : Quote}
    (h : q ∈ groupOf b k l) : q ∈ l ∧ qkey b q = k := by
  have := List.mem_filter.1 h
  exact ⟨this.1, by simpa using this.2⟩

/-- The winner characterization of the latest map at one key (shared by
the group-conflict and permutation-invariance results). -/
theorem latestMap_winner (now : Nat) (b : Bool) (l : List Quote)
    (k : MarketKey) (hne : groupOf b k l ≠ []) :
    ∃ w g₁ g₂,
      latestMap now b l k = some (mkLatest now b w) ∧
      groupOf b k l = g₁ ++ w :: g₂ ∧
      (∀ x ∈ groupOf b k l, effTs now x ≤ effTs now w) ∧
      (∀ x ∈ g₂, effTs now x < effTs now w) := by
  obtain ⟨q, g, hg⟩ : ∃ q g, groupOf b k l = q :: g := by
    cases hgl : groupOf b k l with
    | nil => exact absurd hgl hne
    | cons q g => exact ⟨q, g, rfl⟩
  obtain ⟨g₁, g₂, hsplit, hmax, hafter⟩ := winnerQ_spec now q g
  refine ⟨winnerQ now q g, g₁, g₂, ?_, ?_, ?_, hafter⟩
  · rw [latestMap_eq_groupFold, hg, groupFold_cons]
  · rw [hg]; exact hsplit
  · rw [hg]; exact hmax

theorem latestMap_none_iff (now : Nat) (b : Bool) (l : List Quote) (k : MarketKey) :
    latestMap now b l k = none ↔ groupOf b k l = [] := by
  constructor
  · intro h
    by_contra hne
    obtain ⟨w, _, _, hsome, _⟩ := latestMap_winner now b l k hne
    rw [h] at hsome
    exact Option.noConfusion hsome
  · intro h
    rw [latestMap_eq_groupFold, h]
    rfl

/-! ## Claim C3: conflict resolution within a group -/

/-- C3: for every non-empty group keyed by (symbol, market, side-or-blank,
currency) there is a winning quote w such that the latest map holds the
row built from w, w attains the maximal effective timestamp of the group
(a zero receivedAt being compared as the processing time now, via effTs),
every group member processed after w is strictly older (so on exact ties
the later-processed quote wins), and the winning row appears in the
LatestByMarket output. -/
theorem latestByMarket_group_winner (now : Nat) (b : Bool) (l : List Quote)
    (k : MarketKey) (hne : groupOf b k l ≠ []) :
    ∃ w g₁ g₂,
      latestMap now b l k = some (mkLatest now b w) ∧
      groupOf b k l = g₁ ++ w :: g₂ ∧
      (∀ x ∈ groupOf b k l, effTs now x ≤ effTs now w) ∧
      (∀ x ∈ g₂, effTs now x < effTs now w) ∧
      mkLatest now b w ∈ LatestByMarket now l b := by
  obtain ⟨w, g₁, g₂, hmap, hsplit, hmax, hafter⟩ := latestMap_winner now b l k hne
  refine ⟨w, g₁, g₂, hmap, hsplit, hmax, hafter, ?_⟩
  have hwmem : w ∈ groupOf b k l := by rw [hsplit]; simp
  obtain ⟨hwl, hwk⟩ := mem_groupOf hwmem
  have hkmem : k ∈ keysInOrder b l := (mem_keysInOrder b l k).2 ⟨w, hwl, hwk⟩
  have hout : mkLatest now b w ∈
      (keysInOrder b l).filterMap (latestMap now b l) :=
    List.mem_filterMap.2 ⟨k, hkmem, hmap⟩
  exact (List.perm_insertionSort latestLE _).mem_iff.2 hout

/-- C3 witness: two quotes in one group with equal timestamps; the
later-processed quote (price 11) wins the tie. -/
theorem latestByMarket_group_winner_witness :
    groupOf false ⟨"X", "BUFF", "", "USD"⟩
      [⟨"X", "10", "USD", "P1:BUFF:sell", (5 : Nat)⟩,
       ⟨"X", "11", "USD", "P2:buff", (5 : Nat)⟩] ≠ [] ∧
    ∃ w g₁ g₂,
      latestMap 100 false
        [⟨"X", "10", "USD", "P1:BUFF:sell", (5 : Nat)⟩,
         ⟨"X", "11", "USD", "P2:buff", (5 : Nat)⟩] ⟨"X", "BUFF", "", "USD"⟩ =
        some (mkLatest 100 false w) ∧
      groupOf false ⟨"X", "BUFF", "", "USD"⟩
        [⟨"X", "10", "USD", "P1:BUFF:sell", (5 : Nat)⟩,
         ⟨"X", "11", "USD", "P2:buff", (5 : Nat)⟩] = g₁ ++ w :: g₂ ∧
      (∀ x ∈ groupOf false ⟨"X", "BUFF", "", "USD"⟩
        [⟨"X", "10", "USD", "P1:BUFF:sell", (5 : Nat)⟩,
         ⟨"X", "11", "USD", "P2:buff", (5 : Nat)⟩],
        effTs 100 x ≤ effTs 100 w) ∧
      (∀ x ∈ g₂, effTs 100 x < effTs 100 w) ∧
      mkLatest 100 false w ∈ LatestByMarket 100
        [⟨"X", "10", "USD", "P1:BUFF:sell", (5 : Nat)⟩,
         ⟨"X", "11", "USD", "P2:buff", (5 : Nat)⟩] false :=
  ⟨by decide,
    latestByMarket_group_winner 100 false
      [⟨"X", "10", "USD", "P1:BUFF:sell", 5⟩, ⟨"X", "11", "USD", "P2:buff", 5⟩]
      ⟨"X", "BUFF", "", "USD"⟩ (by decide)⟩

/-! ## Claim C1: the concrete two-quote scenario -/

set_option maxHeartbeats 1000000 in
/-- C1: for inputs (X, 10, USD, P1:BUFF:sell, T) and
(X, 11, USD, P2:buff, T + 1h) with sides ignored, LatestByMarket returns
exactly one row: (X, BUFF, side empty, USD, 11, received T + 1h).
T must be a real (non-zero) timestamp; now is the processing time. -/
theorem latestByMarket_concrete_scenario (T now : Nat) (hT : T ≠ 0) :
    LatestByMarket now
      [⟨"X", "10", "USD", "P1:BUFF:sell", T⟩,
       ⟨"X", "11", "USD", "P2:buff", T + oneHour⟩] false =
    [{ Symbol := "X", Market := "BUFF", Side := "", Currency := "USD"
       Price := "11", Provider := "P2", ReceivedAt := T + oneHour }] := by
  have hH : T + oneHour ≠ 0 := by unfold oneHour; omega
  have hlt : T < T + oneHour := by unfold oneHour; omega
  have hns1 : NormalizeSource "P1:BUFF:sell" = ("BUFF", "sell") := by decide
  have hns2 : NormalizeSource "P2:buff" = ("BUFF", "") := by decide
  have hsp1 : sourceProvider "P1:BUFF:sell" = "P1" := by decide
  have hsp2 : sourceProvider "P2:buff" = "P2" := by decide
  have hk1 : qkey false (⟨"X", "10", "USD", "P1:BUFF:sell", T⟩ : Quote) =
      ⟨"X", "BUFF", "", "USD"⟩ := by simp [qkey, hns1]
  have hk2 : qkey false (⟨"X", "11", "USD", "P2:buff", T + oneHour⟩ : Quote) =
      ⟨"X", "BUFF", "", "USD"⟩ := by simp [qkey, hns2]
  have he2 : effTs now (⟨"X", "11", "USD", "P2:buff", T + oneHour⟩ : Quote) =
      T + oneHour := by simp [effTs, hH]
  have hm1 : mkLatest now false (⟨"X", "10", "USD", "P1:BUFF:sell", T⟩ : Quote) =
      ⟨"X", "BUFF", "", "USD", "10", "P1", T⟩ := by
    simp [mkLatest, hns1, hsp1, effTs, hT]
  have hm2 : mkLatest now false (⟨"X", "11", "USD", "P2:buff", T + oneHour⟩ : Quote) =
      ⟨"X", "BUFF", "", "USD", "11", "P2", T + oneHour⟩ := by
    simp [mkLatest, hns2, hsp2, he2, effTs, hH]
  have hstep1 : updLatest now false (fun _ => none)
      (⟨"X", "10", "USD", "P1:BUFF:sell", T⟩ : Quote)
      ⟨"X", "BUFF", "", "USD"⟩ =
      some ⟨"X", "BUFF", "", "USD", "10", "P1", T⟩ := by
    simp [updLatest, hk1, hm1]
  have hstep2 : updLatest now false
      (updLatest now false (fun _ => none) (⟨"X", "10", "USD", "P1:BUFF:sell", T⟩ : Quote))
      (⟨"X", "11", "USD", "P2:buff", T + oneHour⟩ : Quote)
      ⟨"X", "BUFF", "", "USD"⟩ =
      some ⟨"X", "BUFF", "", "USD", "11", "P2", T + oneHour⟩ := by
    rw [updLatest, hk2, hstep1]
    simp [he2, hm2, hlt]
  simp only [LatestByMarket, latestMap, keysInOrder, keysStep, List.foldl_cons,
    List.foldl_nil, hk1, hk2]
  simp only [List.not_mem_nil, if_neg, not_false_iff, if_true, List.nil_append,
    List.mem_singleton, List.singleton_append, ite_true, ite_false, eq_self_iff_true]
  simp only [List.filterMap_cons, List.filterMap_nil, hstep2]
  simp [List.insertionSort, List.orderedInsert]

/-- C1 witness at T = 1000, now = 77. -/
theorem latestByMarket_concrete_scenario_witness :
    (1000 : Nat) ≠ 0 ∧
    LatestByMarket 77
      [⟨"X", "10", "USD", "P1:BUFF:sell", 1000⟩,
       ⟨"X", "11", "USD", "P2:buff", 1000 + oneHour⟩] false =
    [{ Symbol := "X", Market := "BUFF", Side := "", Currency := "USD"
       Price := "11", Provider := "P2", ReceivedAt := 1000 + oneHour }] :=
  ⟨by decide, latestByMarket_concrete_scenario 1000 77 (by decide)⟩

/-! ## Claim C10: unknown-provider sides pass through unvalidated -/

/-- C10: for a source tag with at least three colon-separated fields whose
first field is not (case-insensitively) steamdt, pricempire or
skinstablexyz, NormalizeSource returns the lower-cased trimmed third
field as the side verbatim, with no validation against sell or bid. -/
theorem normalizeSource_side_passthrough (src : String)
    (h3 : 3 ≤ (goSplit (goTrim src) ':').length)
    (hp : goToLower (goTrim ((goSplit (goTrim src) ':').getD 0 "")) ∉
      (["steamdt", "pricempire", "skinstablexyz"] : List String)) :
    (NormalizeSource src).2 =
      goToLower (goTrim ((goSplit (goTrim src) ':').getD 2 "")) := by
  simp only [List.mem_cons, List.mem_singleton, not_or] at hp
  obtain ⟨hp1, hp2, hp3⟩ := hp
  have hne : goTrim src ≠ "" := by
    intro h
    rw [h] at h3
    simp [goSplit, splitCh] at h3
  unfold NormalizeSource
  simp only [hne, if_neg, if_false]
  have hlen0 : ¬ (goSplit (goTrim src) ':').length = 0 := by omega
  simp only [hlen0, if_false, hp1, hp2, hp3, if_neg]
  simp [h3, hp1, hp2, hp3]

/-- C10 witness at the source tag "foo:bar:WEIRD " whose side field is
neither sell nor bid. -/
theorem normalizeSource_side_passthrough_witness :
    3 ≤ (goSplit (goTrim "foo:bar:WEIRD ") ':').length ∧
    goToLower (goTrim ((goSplit (goTrim "foo:bar:WEIRD ") ':').getD 0 "")) ∉
      (["steamdt", "pricempire", "skinstablexyz"] : List String) ∧
    (NormalizeSource "foo:bar:WEIRD ").2 =
      goToLower (goTrim ((goSplit (goTrim "foo:bar:WEIRD ") ':').getD 2 "")) :=
  ⟨by decide, by decide,
    normalizeSource_side_passthrough "foo:bar:WEIRD " (by decide) (by decide)⟩


theorem lessLatest_eq_true_iff (a c : Latest) :
    lessLatest a c = true ↔ lexKey a < lexKey c := by
  unfold lessLatest lexKey
  rw [Prod.Lex.lt_iff, Prod.Lex.lt_iff]
  by_cases h1 : a.Symbol = c.Symbol
  · by_cases h2 : a.Market = c.Market
    · by_cases h3 : a.Side = c.Side
      · simp [h1, h2, h3]
      · simp [h1, h2, h3]
    · simp [h1, h2]
  · simp [h1]

theorem latestLE_iff (a c : Latest) : latestLE a c ↔ lexKey a ≤ lexKey c := by
  unfold latestLE
  rw [Bool.eq_false_iff, Ne, lessLatest_eq_true_iff]
  exact not_lt

instance : IsTotal Latest latestLE :=
  ⟨fun a c => by rw [latestLE_iff, latestLE_iff]; exact le_total _ _⟩

instance : IsTrans Latest latestLE :=
  ⟨fun a b c h1 h2 => by
    rw [latestLE_iff] at h1 h2 ⊢
    exact le_trans h1 h2⟩

theorem lexKey_eq_fields {a c : Latest} (h : lexKey a = lexKey c) :
    a.Symbol = c.Symbol ∧ a.Market = c.Market ∧ a.Side = c.Side := by
  have h1 : ((a.Symbol, toLex (a.Market, a.Side)) : String × (String ×ₗ String)) =
      (c.Symbol, toLex (c.Market, c.Side)) := h
  have hs : a.Symbol = c.Symbol := congrArg Prod.fst h1
  have h2 : (toLex (a.Market, a.Side) : String ×ₗ String) = toLex (c.Market, c.Side) :=
    congrArg Prod.snd h1
  have h3 : ((a.Market, a.Side) : String × String) = (c.Market, c.Side) := h2
  exact ⟨hs, congrArg Prod.fst h3, congrArg Prod.snd h3⟩

theorem LatestByMarket_eq_sort (now : Nat) (l : List Quote) (b : Bool) :
    LatestByMarket now l b = List.insertionSort latestLE (outRows now b l) := rfl

theorem effTs_of_nonzero {now : Nat} {q : Quote} (h : q.ReceivedAt ≠ 0) :
    effTs now q = q.ReceivedAt := if_neg h

theorem mkLatest_now_indep {now now' : Nat} {b : Bool} {q : Quote}
    (h : q.ReceivedAt ≠ 0) : mkLatest now b q = mkLatest now' b q := by
  unfold mkLatest
  rw [effTs_of_nonzero h, effTs_of_nonzero h]

/-- A Latest row stored in the map carries the fields of its key. -/
theorem latestMap_some_fields {now : Nat} {b : Bool} {l : List Quote}
    {k : MarketKey} {r : Latest} (h : latestMap now b l k = some r) :
    r.Symbol = k.Symbol ∧ r.Market = k.Market ∧ r.Side = k.Side ∧
      r.Currency = k.Currency := by
  have hne : groupOf b k l ≠ [] := by
    intro hnil
    rw [(latestMap_none_iff now b l k).2 hnil] at h
    exact Option.noConfusion h
  obtain ⟨w, g₁, g₂, hm, hsplit, _, _⟩ := latestMap_winner now b l k hne
  rw [h] at hm
  have hr : r = mkLatest now b w := Option.some.inj hm
  have hwk : qkey b w = k := (mem_groupOf (by rw [hsplit]; simp)).2
  subst hr
  rw [← hwk]
  exact ⟨rfl, rfl, rfl, rfl⟩

/-- With pairwise-distinct timestamps inside a group, the maximal group
member is unique. -/
theorem max_unique {l : List Quote} {b : Bool} {k : MarketKey}
    (hd : ∀ q ∈ l, ∀ q' ∈ l, qkey b q = qkey b q' → q ≠ q' →
      q.ReceivedAt ≠ q'.ReceivedAt)
    {w w' : Quote} (hw : w ∈ groupOf b k l) (hw' : w' ∈ groupOf b k l)
    (hmax : ∀ x ∈ groupOf b k l, x.ReceivedAt ≤ w.ReceivedAt)
    (hmax' : ∀ x ∈ groupOf b k l, x.ReceivedAt ≤ w'.ReceivedAt) : w = w' := by
  by_contra hne
  have heq : w.ReceivedAt = w'.ReceivedAt :=
    Nat.le_antisymm (hmax' w hw) (hmax w' hw')
  obtain ⟨hwl, hwk⟩ := mem_groupOf hw
  obtain ⟨hwl', hwk'⟩ := mem_groupOf hw'
  exact hd w hwl w' hwl' (hwk.trans hwk'.symm) hne heq

/-- With non-zero, per-group-distinct timestamps the latest map is the
same function for the original list and any permutation of it, even
across different processing times. -/
theorem latestMap_perm_pointwise (now now' : Nat) (b : Bool) {l l' : List Quote}
    (hperm : l.Perm l')
    (hz : ∀ q ∈ l, q.ReceivedAt ≠ 0)
    (hd : ∀ q ∈ l, ∀ q' ∈ l, qkey b q = qkey b q' → q ≠ q' →
      q.ReceivedAt ≠ q'.ReceivedAt)
    (k : MarketKey) :
    latestMap now b l k = latestMap now' b l' k := by
  have hgp : (groupOf b k l).Perm (groupOf b k l') :=
    hperm.filter (fun q => decide (qkey b q = k))
  by_cases hnil : groupOf b k l = []
  · have hnil' : groupOf b k l' = [] := by
      rw [hnil] at hgp
      exact hgp.symm.eq_nil
    rw [(latestMap_none_iff now b l k).2 hnil,
      (latestMap_none_iff now' b l' k).2 hnil']
  · have hnil' : groupOf b k l' ≠ [] := by
      intro h
      rw [h] at hgp
      exact hnil hgp.eq_nil
    obtain ⟨w, g₁, g₂, hm, hsplit, hmax, _⟩ := latestMap_winner now b l k hnil
    obtain ⟨w', g₁', g₂', hm', hsplit', hmax', _⟩ := latestMap_winner now' b l' k hnil'
    have hzg : ∀ x ∈ groupOf b k l, x.ReceivedAt ≠ 0 :=
      fun x hx => hz x (mem_groupOf hx).1
    have hwmem : w ∈ groupOf b k l := by rw [hsplit]; simp
    have hwmem' : w' ∈ groupOf b k l := hgp.mem_iff.2 (by rw [hsplit']; simp)
    have hmaxR : ∀ x ∈ groupOf b k l, x.ReceivedAt ≤ w.ReceivedAt := by
      intro x hx
      have := hmax x hx
      rwa [effTs_of_nonzero (hzg x hx), effTs_of_nonzero (hzg w hwmem)] at this
    have hmaxR' : ∀ x ∈ groupOf b k l, x.ReceivedAt ≤ w'.ReceivedAt := by
      intro x hx
      have hx' : x ∈ groupOf b k l' := hgp.mem_iff.1 hx
      have := hmax' x hx'
      rwa [effTs_of_nonzero (hzg x hx), effTs_of_nonzero (hzg w' hwmem')] at this
    have hww : w = w' := max_unique hd hwmem hwmem' hmaxR hmaxR'
    rw [hm, hm', ← hww, mkLatest_now_indep (hz w (mem_groupOf hwmem).1)]

theorem keysInOrder_perm {b : Bool} {l l' : List Quote} (hperm : l.Perm l') :
    (keysInOrder b l).Perm (keysInOrder b l') := by
  refine (List.perm_ext_iff_of_nodup (nodup_keysInOrder b l)
    (nodup_keysInOrder b l')).2 (fun k => ?_)
  rw [mem_keysInOrder, mem_keysInOrder]
  constructor
  · rintro ⟨q, hq, hk⟩
    exact ⟨q, hperm.mem_iff.1 hq, hk⟩
  · rintro ⟨q, hq, hk⟩
    exact ⟨q, hperm.mem_iff.2 hq, hk⟩

/-- Two sorted permutations of each other agree when the order is
antisymmetric on the elements actually present. -/
theorem sorted_eq_of_perm_anti {l₁ l₂ : List Latest}
    (p : l₁.Perm l₂) (s₁ : l₁.Sorted latestLE) (s₂ : l₂.Sorted latestLE)
    (hanti : ∀ a ∈ l₁, ∀ c ∈ l₁, latestLE a c → latestLE c a → a = c) :
    l₁ = l₂ := by
  induction l₁ generalizing l₂ with
  | nil => exact (p.symm.eq_nil).symm
  | cons a t₁ ih =>
    cases l₂ with
    | nil => exact absurd p.eq_nil (by simp)
    | cons c t₂ =>
      by_cases hac : a = c
      · subst hac
        have hanti' : ∀ x ∈ t₁, ∀ y ∈ t₁, latestLE x y → latestLE y x → x = y :=
          fun x hx y hy => hanti x (List.mem_cons_of_mem a hx) y (List.mem_cons_of_mem a hy)
        rw [ih p.cons_inv s₁.of_cons s₂.of_cons hanti']
      · have ha2 : a ∈ t₂ := by
          have : a ∈ c :: t₂ := p.subset (List.mem_cons_self a t₁)
          rcases List.mem_cons.1 this with h | h
          · exact absurd h hac
          · exact h
        have hc1 : c ∈ t₁ := by
          have : c ∈ a :: t₁ := p.symm.subset (List.mem_cons_self c t₂)
          rcases List.mem_cons.1 this with h | h
          · exact absurd h.symm hac
          · exact h
        have h1 : latestLE a c := List.rel_of_sorted_cons s₁ c hc1
        have h2 : latestLE c a := List.rel_of_sorted_cons s₂ a ha2
        exact absurd (hanti a (List.mem_cons_self a t₁) c
          (List.mem_cons_of_mem a hc1) h1 h2) hac

/-! ## Claim C2: permutation invariance of the aggregator -/

/-- C2 counterexample: two quotes in the same group with equal non-zero
timestamps; swapping the input order changes the surviving price (10
versus 11), so the outputs differ.  The later-processed quote wins on an
exact timestamp tie, which makes the result order-sensitive. -/
theorem latestByMarket_perm_counterexample :
    List.Perm
      [(⟨"X", "10", "USD", "P1:BUFF:sell", 5⟩ : Quote),
       ⟨"X", "11", "USD", "P2:buff", 5⟩]
      [(⟨"X", "11", "USD", "P2:buff", 5⟩ : Quote),
       ⟨"X", "10", "USD", "P1:BUFF:sell", 5⟩] ∧
    (∀ q ∈ [(⟨"X", "10", "USD", "P1:BUFF:sell", 5⟩ : Quote),
       ⟨"X", "11", "USD", "P2:buff", 5⟩], q.ReceivedAt ≠ 0) ∧
    LatestByMarket 100
      [(⟨"X", "10", "USD", "P1:BUFF:sell", 5⟩ : Quote),
       ⟨"X", "11", "USD", "P2:buff", 5⟩] false ≠
    LatestByMarket 100
      [(⟨"X", "11", "USD", "P2:buff", 5⟩ : Quote),
       ⟨"X", "10", "USD", "P1:BUFF:sell", 5⟩] false :=
  ⟨List.Perm.swap _ _ _, by decide, by decide⟩

/-- C2 amended: when all timestamps are non-zero and no two distinct
quotes of the same group share a timestamp, the aggregator output over
any permutation of the input (and any processing times) contains the
same rows, as a permutation of the original output; the two output
sequences are moreover identical whenever groups are not distinguished
by currency alone (distinct keys always differ in symbol, market or
side, the fields the output sort compares). -/
theorem latestByMarket_perm_invariant (now now' : Nat) (b : Bool)
    (l l' : List Quote) (hperm : l.Perm l')
    (hz : ∀ q ∈ l, q.ReceivedAt ≠ 0)
    (hd : ∀ q ∈ l, ∀ q' ∈ l, qkey b q = qkey b q' → q ≠ q' →
      q.ReceivedAt ≠ q'.ReceivedAt) :
    (LatestByMarket now l b).Perm (LatestByMarket now' l' b) ∧
    ((∀ q ∈ l, ∀ q' ∈ l, (qkey b q).Symbol = (qkey b q').Symbol →
        (qkey b q).Market = (qkey b q').Market →
        (qkey b q).Side = (qkey b q').Side → qkey b q = qkey b q') →
      LatestByMarket now l b = LatestByMarket now' l' b) := by
  have hfun : latestMap now b l = latestMap now' b l' :=
    funext (latestMap_perm_pointwise now now' b hperm hz hd)
  have hrows : (outRows now b l).Perm (outRows now' b l') := by
    rw [outRows, outRows, hfun]
    exact (keysInOrder_perm hperm).filterMap (latestMap now' b l')
  have hout : (LatestByMarket now l b).Perm (LatestByMarket now' l' b) := by
    rw [LatestByMarket_eq_sort, LatestByMarket_eq_sort]
    exact (List.perm_insertionSort latestLE (outRows now b l)).trans
      (hrows.trans (List.perm_insertionSort latestLE (outRows now' b l')).symm)
  refine ⟨hout, fun hsep => ?_⟩
  have hanti : ∀ a ∈ LatestByMarket now l b, ∀ c ∈ LatestByMarket now l b,
      latestLE a c → latestLE c a → a = c := by
    intro a ha c hc hle1 hle2
    have ha' : a ∈ outRows now b l := by
      rw [LatestByMarket_eq_sort] at ha
      exact (List.perm_insertionSort latestLE _).mem_iff.1 ha
    have hc' : c ∈ outRows now b l := by
      rw [LatestByMarket_eq_sort] at hc
      exact (List.perm_insertionSort latestLE _).mem_iff.1 hc
    obtain ⟨ka, hka_mem, hka⟩ := List.mem_filterMap.1 ha'
    obtain ⟨kc, hkc_mem, hkc⟩ := List.mem_filterMap.1 hc'
    have hlex : lexKey a = lexKey c :=
      le_antisymm ((latestLE_iff a c).1 hle1) ((latestLE_iff c a).1 hle2)
    obtain ⟨hS, hM, hSd⟩ := lexKey_eq_fields hlex
    obtain ⟨haS, haM, haSd, _⟩ := latestMap_some_fields hka
    obtain ⟨hcS, hcM, hcSd, _⟩ := latestMap_some_fields hkc
    obtain ⟨qa, hqa, hqak⟩ := (mem_keysInOrder b l ka).1 hka_mem
    obtain ⟨qc, hqc, hqck⟩ := (mem_keysInOrder b l kc).1 hkc_mem
    have hkk : ka = kc := by
      rw [← hqak, ← hqck]
      refine hsep qa hqa qc hqc ?_ ?_ ?_
      · rw [hqak, hqck, ← haS, ← hcS, hS]
      · rw [hqak, hqck, ← haM, ← hcM, hM]
      · rw [hqak, hqck, ← haSd, ← hcSd, hSd]
    rw [hkk, hkc] at hka
    exact (Option.some.inj hka).symm
  refine sorted_eq_of_perm_anti hout ?_ ?_ hanti
  · rw [LatestByMarket_eq_sort]
    exact List.sorted_insertionSort latestLE (outRows now b l)
  · rw [LatestByMarket_eq_sort]
    exact List.sorted_insertionSort latestLE (outRows now' b l')

/-- C2 witness: two same-group quotes with distinct non-zero timestamps,
swapped; both conjuncts of the amended statement apply, and the
distinct-key side condition holds, so the outputs are equal. -/
theorem latestByMarket_perm_invariant_witness :
    List.Perm
      [(⟨"X", "10", "USD", "P1:BUFF:sell", 5⟩ : Quote),
       ⟨"X", "11", "USD", "P2:buff", 6⟩]
      [(⟨"X", "11", "USD", "P2:buff", 6⟩ : Quote),
       ⟨"X", "10", "USD", "P1:BUFF:sell", 5⟩] ∧
    (∀ q ∈ [(⟨"X", "10", "USD", "P1:BUFF:sell", 5⟩ : Quote),
       ⟨"X", "11", "USD", "P2:buff", 6⟩], q.ReceivedAt ≠ 0) ∧
    (∀ q ∈ [(⟨"X", "10", "USD", "P1:BUFF:sell", 5⟩ : Quote),
       ⟨"X", "11", "USD", "P2:buff", 6⟩],
      ∀ q' ∈ [(⟨"X", "10", "USD", "P1:BUFF:sell", 5⟩ : Quote),
       ⟨"X", "11", "USD", "P2:buff", 6⟩],
      qkey false q = qkey false q' → q ≠ q' → q.ReceivedAt ≠ q'.ReceivedAt) ∧
    ((LatestByMarket 100
        [(⟨"X", "10", "USD", "P1:BUFF:sell", 5⟩ : Quote),
         ⟨"X", "11", "USD", "P2:buff", 6⟩] false).Perm
      (LatestByMarket 200
        [(⟨"X", "11", "USD", "P2:buff", 6⟩ : Quote),
         ⟨"X", "10", "USD", "P1:BUFF:sell", 5⟩] false) ∧
    ((∀ q ∈ [(⟨"X", "10", "USD", "P1:BUFF:sell", 5⟩ : Quote),
         ⟨"X", "11", "USD", "P2:buff", 6⟩],
        ∀ q' ∈ [(⟨"X", "10", "USD", "P1:BUFF:sell", 5⟩ : Quote),
         ⟨"X", "11", "USD", "P2:buff", 6⟩],
        (qkey false q).Symbol = (qkey false q').Symbol →
        (qkey false q).Market = (qkey false q').Market →
        (qkey false q).Side = (qkey false q').Side → qkey false q = qkey false q') →
      LatestByMarket 100
        [(⟨"X", "10", "USD", "P1:BUFF:sell", 5⟩ : Quote),
         ⟨"X", "11", "USD", "P2:buff", 6⟩] false =
      LatestByMarket 200
        [(⟨"X", "11", "USD", "P2:buff", 6⟩ : Quote),
         ⟨"X", "10", "USD", "P1:BUFF:sell", 5⟩] false)) :=
  ⟨List.Perm.swap _ _ _, by decide, by decide,
    latestByMarket_perm_invariant 100 200 false _ _
      (List.Perm.swap _ _ _) (by decide) (by decide)⟩

/-- Membership in dedupFO is membership in the underlying list. -/
theorem mem_dedupFO (l : List String) (s : String) : s ∈ dedupFO l ↔ s ∈ l := by
  suffices h : ∀ acc, s ∈ l.foldl
      (fun acc s => if s ∈ acc then acc else acc ++ [s]) acc ↔ s ∈ acc ∨ s ∈ l by
    rw [dedupFO, h]
    simp
  induction l with
  | nil => intro acc; simp
  | cons x t ih =>
    intro acc
    rw [List.foldl_cons]
    by_cases hx : x ∈ acc
    · rw [if_pos hx, ih]
      constructor
      · rintro (h | h)
        · exact Or.inl h
        · exact Or.inr (List.mem_cons_of_mem x h)
      · rintro (h | h)
        · exact Or.inl h
        · rcases List.mem_cons.1 h with h' | h'
          · subst h'
            exact Or.inl hx
          · exact Or.inr h'
    · rw [if_neg hx, ih]
      constructor
      · rintro (h | h)
        · rcases List.mem_append.1 h with h' | h'
          · exact Or.inl h'
          · have : s = x := by simpa using h'
            subst this
            exact Or.inr (List.mem_cons_self s t)
        · exact Or.inr (List.mem_cons_of_mem x h)
      · rintro (h | h)
        · exact Or.inl (List.mem_append.2 (Or.inl h))
        · rcases List.mem_cons.1 h with h' | h'
          · subst h'
            exact Or.inl (List.mem_append.2 (Or.inr (by simp)))
          · exact Or.inr h'

theorem mem_itemsInsert {items : List (String × CEntry)} {s : String} {e : CEntry}
    {p : String × CEntry} (h : p ∈ itemsInsert items s e) :
    p = (s, e) ∨ p ∈ items := by
  induction items with
  | nil => simpa [itemsInsert] using h
  | cons kv t ih =>
    unfold itemsInsert at h
    by_cases hk : kv.1 = s
    · rw [if_pos hk] at h
      rcases List.mem_cons.1 h with h' | h'
      · exact Or.inl h'
      · exact Or.inr (List.mem_cons_of_mem kv h')
    · rw [if_neg hk] at h
      rcases List.mem_cons.1 h with h' | h'
      · exact Or.inr (h' ▸ List.mem_cons_self kv t)
      · rcases ih h' with h'' | h''
        · exact Or.inl h''
        · exact Or.inr (List.mem_cons_of_mem kv h'')

theorem mem_insert_foldl {syms : List String} {items : List (String × CEntry)}
    {g : String → CEntry} {p : String × CEntry}
    (h : p ∈ syms.foldl (fun acc s => itemsInsert acc s (g s)) items) :
    p ∈ items ∨ ∃ s ∈ syms, p = (s, g s) := by
  induction syms generalizing items with
  | nil => exact Or.inl h
  | cons x t ih =>
    rw [List.foldl_cons] at h
    rcases ih h with h' | ⟨s, hs, hp⟩
    · rcases mem_itemsInsert h' with h'' | h''
      · exact Or.inr ⟨x, by simp, h''⟩
      · exact Or.inl h''
    · exact Or.inr ⟨s, List.mem_cons_of_mem x hs, hp⟩

theorem mem_evictExpired {en maxI : Nat} :
    ∀ {l : List (String × CEntry)} {size : Nat} {p : String × CEntry},
      p ∈ evictExpired en maxI l size → p ∈ l := by
  intro l
  induction l with
  | nil => intro size p h; simp [evictExpired] at h
  | cons kv t ih =>
    intro size p h
    unfold evictExpired at h
    by_cases h1 : en > kv.2.expiresAt
    · rw [if_pos h1] at h
      by_cases h2 : size - 1 ≤ maxI
      · rw [if_pos h2] at h
        exact List.mem_cons_of_mem kv h
      · rw [if_neg h2] at h
        exact List.mem_cons_of_mem kv (ih h)
    · rw [if_neg h1] at h
      by_cases h2 : size ≤ maxI
      · rw [if_pos h2] at h
        exact h
      · rw [if_neg h2] at h
        rcases List.mem_cons.1 h with h' | h'
        · exact h' ▸ List.mem_cons_self kv t
        · exact List.mem_cons_of_mem kv (ih h')

theorem mem_evictAny {maxI : Nat} :
    ∀ {l : List (String × CEntry)} {size : Nat} {p : String × CEntry},
      p ∈ evictAny maxI l size → p ∈ l := by
  intro l
  induction l with
  | nil => intro size p h; simp [evictAny] at h
  | cons kv t ih =>
    intro size p h
    unfold evictAny at h
    by_cases h2 : size ≤ maxI
    · rw [if_pos h2] at h
      exact h
    · rw [if_neg h2] at h
      exact List.mem_cons_of_mem kv (ih h)

/-- Every cache state cacheFetch produces keeps the entry invariant: the
quotes list of every stored entry is non-empty (entries are only created
from non-empty per-symbol groups of fresh quotes).  This discharges the
hypothesis of the degradation theorem for every reachable cache state. -/
theorem cacheFetch_preserves_nonempty {eps : Type}
    (inner : List String → Except eps (List Quote))
    (ttl maxItems : Int) (items : List (String × CEntry)) (now evictNow : Nat)
    (symbols : List String)
    (hinv : ∀ p ∈ items, p.2.quotes ≠ []) :
    ∀ p ∈ (cacheFetch inner ttl maxItems items now evictNow symbols).2,
      p.2.quotes ≠ [] := by
  unfold cacheFetch
  by_cases httl : ttl ≤ 0
  · rw [if_pos httl]
    exact hinv
  · rw [if_neg httl]
    simp only []
    by_cases hfil : symbols.filter (fun s => ! cacheValid items now s) = []
    · rw [if_pos hfil]
      exact hinv
    · rw [if_neg hfil]
      cases hres : inner (missingList items now symbols) with
      | error e =>
        simp only []
        by_cases hlen : 0 < (cachedQuotes items now symbols).length
        · rw [if_pos hlen]
          exact hinv
        · rw [if_neg hlen]
          exact hinv
      | ok fresh =>
        simp only []
        intro p hp
        have hitems1 : ∀ q ∈ (dedupFO (fresh.map (fun q => q.Symbol))).foldl
            (fun acc s => itemsInsert acc s
              ⟨now + ttl.toNat, fresh.filter (fun r => decide (r.Symbol = s))⟩) items,
            q.2.quotes ≠ [] := by
          intro q hq
          rcases mem_insert_foldl hq with h' | ⟨s, hs, hqe⟩
          · exact hinv q h'
          · subst hqe
            have hsf : s ∈ fresh.map (fun q => q.Symbol) := (mem_dedupFO _ s).1 hs
            obtain ⟨r, hr, hrs⟩ := List.mem_map.1 hsf
            intro hnil
            have hnil' : fresh.filter (fun r => decide (r.Symbol = s)) = [] := hnil
            have hmem : r ∈ fresh.filter (fun r => decide (r.Symbol = s)) :=
              List.mem_filter.2 ⟨hr, by simp [hrs]⟩
            rw [hnil'] at hmem
            simp at hmem
        by_cases hcap : 0 < maxItems ∧ maxItems.toNat <
            ((dedupFO (fresh.map (fun q => q.Symbol))).foldl
              (fun acc s => itemsInsert acc s
                ⟨now + ttl.toNat, fresh.filter (fun r => decide (r.Symbol = s))⟩)
              items).length
        · rw [if_pos hcap] at hp
          exact hitems1 p (mem_evictExpired (mem_evictAny hp))
        · rw [if_neg hcap] at hp
          exact hitems1 p hp

/-! ## Claim C4: cache degradation on wrapped-provider error -/

/-- C4: when the wrapped provider is consulted (the missing list is
non-empty) and fails, the cache decorator returns the quotes of all
valid cached entries with no error as soon as at least one requested
symbol has a valid entry holding at least one quote (entries are only
ever created from non-empty fresh groups, hence the invariant hinv),
and propagates the wrapped provider's error when no requested symbol
has a valid entry; the cache map is unchanged in both cases. -/
theorem cacheFetch_error_degradation {eps : Type}
    (inner : List String → Except eps (List Quote))
    (ttl maxItems : Int) (items : List (String × CEntry)) (now evictNow : Nat)
    (symbols : List String) (e : eps)
    (httl : 0 < ttl)
    (hinv : ∀ p ∈ items, p.2.quotes ≠ [])
    (hmiss : missingList items now symbols ≠ [])
    (herr : inner (missingList items now symbols) = .error e) :
    ((∃ s ∈ symbols, cacheValid items now s = true) →
      cacheFetch inner ttl maxItems items now evictNow symbols =
        (.ok (cachedQuotes items now symbols), items)) ∧
    ((∀ s ∈ symbols, cacheValid items now s = false) →
      cacheFetch inner ttl maxItems items now evictNow symbols =
        (.error e, items)) := by
  have hnle : ¬ ttl ≤ 0 := not_le.2 httl
  have hfil : ¬ symbols.filter (fun s => ! cacheValid items now s) = [] := by
    intro h
    apply hmiss
    rw [missingList, h]
    rfl
  constructor
  · rintro ⟨s, hs, hv⟩
    have hlen : 0 < (cachedQuotes items now symbols).length := by
      obtain ⟨ce, hfind, hlt⟩ : ∃ ce, itemsFind items s = some ce ∧ now < ce.expiresAt := by
        unfold cacheValid at hv
        cases hfe : itemsFind items s with
        | none => rw [hfe] at hv; exact absurd hv (by simp)
        | some ce => rw [hfe] at hv; exact ⟨ce, rfl, by simpa using hv⟩
      have hmem : ∃ p ∈ items, p.1 = s ∧ p.2 = ce := by
        unfold itemsFind at hfind
        cases hf : items.find? (fun p => decide (p.1 = s)) with
        | none => rw [hf] at hfind; exact absurd hfind (by simp)
        | some p =>
          rw [hf] at hfind
          refine ⟨p, List.mem_of_find?_eq_some hf, ?_, by simpa using hfind⟩
          have := List.find?_some hf
          simpa using this
      obtain ⟨p, hpmem, hp1, hp2⟩ := hmem
      have hq : ce.quotes ≠ [] := by rw [← hp2]; exact hinv p hpmem
      obtain ⟨q, hqmem⟩ := List.exists_mem_of_ne_nil _ hq
      have hqc : q ∈ cachedQuotes items now symbols := by
        unfold cachedQuotes
        refine List.mem_flatMap.2 ⟨s, hs, ?_⟩
        rw [hfind]
        show q ∈ (if now < ce.expiresAt then ce.quotes else [])
        rw [if_pos hlt]
        exact hqmem
      exact List.length_pos.2 (List.ne_nil_of_mem hqc)
    unfold cacheFetch
    rw [if_neg hnle]
    simp only []
    rw [if_neg hfil, herr]
    simp only []
    rw [if_pos hlen]
  · intro hall
    have hc0 : cachedQuotes items now symbols = [] := by
      rw [List.eq_nil_iff_forall_not_mem]
      intro q hq
      obtain ⟨s, hs, hcontrib⟩ := List.mem_flatMap.1 hq
      have hv := hall s hs
      unfold cacheValid at hv
      cases hfe : itemsFind items s with
      | none => rw [hfe] at hcontrib; simp at hcontrib
      | some ce =>
        rw [hfe] at hv hcontrib
        have hnlt : ¬ now < ce.expiresAt := by simpa using hv
        have hcontrib' : q ∈ (if now < ce.expiresAt then ce.quotes else []) := hcontrib
        rw [if_neg hnlt] at hcontrib'
        simp at hcontrib'
    unfold cacheFetch
    rw [if_neg hnle]
    simp only []
    rw [if_neg hfil, herr]
    simp only []
    rw [hc0]
    simp

/-- C4 witness: symbol A has a valid non-empty entry, symbol B misses and
the wrapped provider fails; the decorator serves the cached quote for A
with no error and leaves the cache unchanged. -/
theorem cacheFetch_error_degradation_witness :
    (0 : Int) < 60 ∧
    (∀ p ∈ [("A", (⟨100, [⟨"A", "1", "USD", "P:BUFF", 40⟩]⟩ : CEntry))],
      p.2.quotes ≠ []) ∧
    missingList [("A", ⟨100, [⟨"A", "1", "USD", "P:BUFF", 40⟩]⟩)] 50 ["A", "B"] ≠ [] ∧
    ((fun _ => (Except.error "boom" : Except String (List Quote)))
      (missingList [("A", ⟨100, [⟨"A", "1", "USD", "P:BUFF", 40⟩]⟩)] 50 ["A", "B"]) =
      .error "boom") ∧
    ((∃ s ∈ ["A", "B"],
        cacheValid [("A", ⟨100, [⟨"A", "1", "USD", "P:BUFF", 40⟩]⟩)] 50 s = true) →
      cacheFetch (fun _ => (Except.error "boom" : Except String (List Quote)))
        60 0 [("A", ⟨100, [⟨"A", "1", "USD", "P:BUFF", 40⟩]⟩)] 50 50 ["A", "B"] =
        (.ok (cachedQuotes [("A", ⟨100, [⟨"A", "1", "USD", "P:BUFF", 40⟩]⟩)] 50
          ["A", "B"]), [("A", ⟨100, [⟨"A", "1", "USD", "P:BUFF", 40⟩]⟩)])) :=
  ⟨by decide, by decide, by decide, rfl,
    (cacheFetch_error_degradation
      (fun _ => (Except.error "boom" : Except String (List Quote)))
      60 0 [("A", ⟨100, [⟨"A", "1", "USD", "P:BUFF", 40⟩]⟩)] 50 50 ["A", "B"] "boom"
      (by decide) (by decide) (by decide) rfl).1⟩

theorem fetchSplit_sizeOracle_aux (K code : Nat) (f : List String → List String)
    (mr : Nat) (hc : code = 400 ∨ code = 413) :
    ∀ n (names : List String), names.length ≤ n →
      (fetchSplit mr (sizeOracle K code f) names 0).1 =
        .ok ((leafBatches K names).map f).flatten := by
  intro n
  induction n with
  | zero =>
    intro names hlen
    have hnil : names = [] := List.eq_nil_of_length_eq_zero (Nat.le_zero.1 hlen)
    subst hnil
    simp [fetchSplit, sizeOracle, leafBatches]
  | succ n ih =>
    intro names hlen
    by_cases hK : names.length ≤ K
    · have hnlt : ¬ K < names.length := not_lt.2 hK
      rw [fetchSplit.eq_def]
      simp only [sizeOracle, if_neg hnlt]
      rw [leafBatches.eq_def]
      simp [hK]
    · have hKlt : K < names.length := not_le.1 hK
      by_cases h1 : names.length ≤ 1
      · rw [fetchSplit.eq_def]
        simp only [sizeOracle, if_pos hKlt]
        rw [leafBatches.eq_def]
        simp [hK, h1, hc]
      · have htake : (names.take (names.length / 2)).length ≤ n := by
          simp [List.length_take]
          omega
        have hdrop : (names.drop (names.length / 2)).length ≤ n := by
          simp [List.length_drop]
          omega
        have ihl := ih _ htake
        have ihr := ih _ hdrop
        rw [fetchSplit.eq_def]
        simp only [sizeOracle, if_pos hKlt]
        rw [leafBatches.eq_def]
        have hcond : (code = 400 ∨ code = 413) = True := by simp [hc]
        simp only [hcond, if_true, dif_neg h1, if_neg hK]
        simp [List.map_append, List.flatten_append, ihl, ihr]

/-! ## Claim C5: convergence of the batch splitter under size rejection -/

/-- C5: against an upstream that deterministically rejects every batch
larger than K with status 400 or 413 and succeeds below that size,
fetchSplit returns, without error, the concatenation of the entries of
every surviving sub-batch of the bisection tree fetched directly; and a
batch of exactly one name that is still rejected (K = 0) is permanently
skipped: one single request is issued for it, no retry, and it yields no
data and no error. -/
theorem fetchSplit_size_reject (K code : Nat) (f : List String → List String)
    (mr : Nat) (hc : code = 400 ∨ code = 413) :
    (∀ names : List String, (fetchSplit mr (sizeOracle K code f) names 0).1 =
        .ok ((leafBatches K names).map f).flatten) ∧
    (∀ (x : String) (attempt : Nat),
        fetchSplit mr (sizeOracle 0 code f) [x] attempt = (.ok [], [[x]])) := by
  constructor
  · intro names
    exact fetchSplit_sizeOracle_aux K code f mr hc names.length names le_rfl
  · intro x attempt
    rw [fetchSplit.eq_def]
    simp [sizeOracle, hc]

/-- C5 witness at K = 1, status 400, three names, and a singleton skip. -/
theorem fetchSplit_size_reject_witness :
    ((400 : Nat) = 400 ∨ (400 : Nat) = 413) ∧
    ((∀ names : List String,
        (fetchSplit 3 (sizeOracle 1 400 (fun b => b)) names 0).1 =
          .ok ((leafBatches 1 names).map (fun b => b)).flatten) ∧
     (∀ (x : String) (attempt : Nat),
        fetchSplit 3 (sizeOracle 0 400 (fun b => b)) [x] attempt =
          (.ok [], [[x]]))) :=
  ⟨Or.inl rfl, fetchSplit_size_reject 1 400 (fun b => b) 3 (Or.inl rfl)⟩

/-! ## Claim C6: a failing half aborts the enclosing batch -/

/-- Retry exhaustion: a deterministically transient upstream answer
(429 or 5xx on every attempt) makes fetchSplit surface that error once
the retry budget is spent, from any starting attempt count. -/
theorem fetchSplit_transient_exhaust (mr : Nat)
    (req : List String → Except GoErr (List String)) (names : List String)
    (code : Nat) (body : String)
    (htrans : code = 429 ∨ (500 ≤ code ∧ code < 600))
    (hreq : req names = .error (.http code body)) :
    ∀ attempt, (fetchSplit mr req names attempt).1 = .error (.http code body) := by
  have hns : ¬ (code = 400 ∨ code = 413) := by omega
  suffices h : ∀ d attempt, mr - attempt ≤ d →
      (fetchSplit mr req names attempt).1 = .error (.http code body) by
    exact fun attempt => h (mr - attempt) attempt le_rfl
  intro d
  induction d with
  | zero =>
    intro attempt hd
    have hge : ¬ attempt < mr := by omega
    rw [fetchSplit.eq_def, hreq]
    simp [hns, htrans, hge]
  | succ d ihd =>
    intro attempt hd
    rw [fetchSplit.eq_def, hreq]
    by_cases hlt : attempt < mr
    · have := ihd (attempt + 1) (by omega)
      simp [hns, htrans, hlt, this]
    · simp [hns, htrans, hlt]

/-- C6 counterexample: the left half fetches its entry ea, the right half
exhausts its retry budget, and fetchSplit returns the right half's error
with no data: the sibling's fetched entry is discarded instead of
appearing in a merged result, refuting the claim as stated. -/
theorem fetchSplit_sibling_counterexample :
    (fetchSplit 3 reqC6 ["a"] 0).1 = .ok ["ea"] ∧
    (fetchSplit 3 reqC6 ["a", "b"] 0).1 = .error (.http 429 "throttled") ∧
    (fetchSplit 3 reqC6 ["a", "b"] 0).1 ≠ .ok ["ea"] := by
  refine ⟨by simp [fetchSplit, reqC6], ?_, ?_⟩
  · simp [fetchSplit, reqC6]
  · simp [fetchSplit, reqC6]

/-- C6 amended: when a batch is bisected and the right half exhausts its
transient-failure retry budget while the left half succeeds, the
enclosing fetchSplit call returns the failing half's error and no data:
the sibling's entries are discarded for that batch (only sibling
top-level batches, which the CLI worker runs as separate jobs, are
unaffected). -/
theorem fetchSplit_sibling_discarded (mr : Nat)
    (req : List String → Except GoErr (List String)) (names : List String)
    (code code' : Nat) (body body' : String) (ld : List String)
    (hsplit : code = 400 ∨ code = 413)
    (hreq : req names = .error (.http code body))
    (hlen : 2 ≤ names.length)
    (hleft : (fetchSplit mr req (names.take (names.length / 2)) 0).1 = .ok ld)
    (htrans : code' = 429 ∨ (500 ≤ code' ∧ code' < 600))
    (hright : req (names.drop (names.length / 2)) = .error (.http code' body')) :
    (fetchSplit mr req names 0).1 = .error (.http code' body') := by
  have hrres := fetchSplit_transient_exhaust mr req (names.drop (names.length / 2))
    code' body' htrans hright 0
  have h1 : ¬ names.length ≤ 1 := by omega
  rw [fetchSplit.eq_def, hreq]
  simp [hsplit, h1, hleft, hrres]

/-- C6 witness: the amended statement applied to the concrete upstream of
the counterexample. -/
theorem fetchSplit_sibling_discarded_witness :
    ((400 : Nat) = 400 ∨ (400 : Nat) = 413) ∧
    reqC6 ["a", "b"] = .error (.http 400 "too big") ∧
    2 ≤ (["a", "b"] : List String).length ∧
    (fetchSplit 3 reqC6 ((["a", "b"] : List String).take
      ((["a", "b"] : List String).length / 2)) 0).1 = .ok ["ea"] ∧
    ((429 : Nat) = 429 ∨ (500 ≤ (429 : Nat) ∧ (429 : Nat) < 600)) ∧
    reqC6 ((["a", "b"] : List String).drop
      ((["a", "b"] : List String).length / 2)) = .error (.http 429 "throttled") ∧
    (fetchSplit 3 reqC6 ["a", "b"] 0).1 = .error (.http 429 "throttled") :=
  ⟨Or.inl rfl, rfl, by decide, by simp [fetchSplit, reqC6], Or.inl rfl, rfl,
    fetchSplit_sibling_discarded 3 reqC6 ["a", "b"] 400 429 "too big" "throttled"
      ["ea"] (Or.inl rfl) rfl (by decide) (by simp [fetchSplit, reqC6])
      (Or.inl rfl) rfl⟩

/-! ## Claim C7: still-expired-at-commit-time wins -/

/-- C7: when the per-site refresh was triggered (the snapshot entry was
absent or expired at read time) and completes successfully, the result
is committed only if the commit-time entry is absent or already expired;
a still-unexpired commit-time entry is left untouched, the in-flight
result discarded, and entries of other sites are never affected. -/
theorem refreshSite_commit_guard {α eps : Type}
    (cacheAtRead : String → Option (SiteCache α)) (readNow : Nat) (site : String)
    (res : SiteCache α) (cacheAtCommit : String → Option (SiteCache α))
    (commitNow : Nat)
    (hexp : cacheAtRead site = none ∨
      ∃ sc, cacheAtRead site = some sc ∧ readNow > sc.untilT) :
    (∀ s, ((refreshSite cacheAtRead readNow site
        (Except.ok res : Except eps (SiteCache α)) cacheAtCommit
        commitNow).1) s =
      if s = site then
        (match cacheAtCommit site with
         | none => some res
         | some sc2 => if commitNow > sc2.untilT then some res else some sc2)
      else cacheAtCommit s) ∧
    (∀ sc2, cacheAtCommit site = some sc2 → ¬ commitNow > sc2.untilT →
      (refreshSite cacheAtRead readNow site
        (Except.ok res : Except eps (SiteCache α)) cacheAtCommit
        commitNow).1 = cacheAtCommit) := by
  have hexpired : (match cacheAtRead site with
      | none => true
      | some sc => decide (readNow > sc.untilT)) = true := by
    rcases hexp with h | ⟨sc, h, hlt⟩
    · rw [h]
    · rw [h]
      simpa using hlt
  constructor
  · intro s
    unfold refreshSite
    rw [hexpired]
    simp only [if_true]
    cases hc : cacheAtCommit site with
    | none =>
      simp only [commitSite, hc]
    | some sc2 =>
      simp only [commitSite, hc]
      by_cases hlt : commitNow > sc2.untilT
      · rw [if_pos hlt, if_pos hlt]
      · rw [if_neg hlt, if_neg hlt]
        by_cases hs : s = site
        · rw [if_pos hs, hs, hc]
        · rw [if_neg hs]
  · intro sc2 hc hnlt
    unfold refreshSite
    rw [hexpired]
    simp only [if_true]
    simp only [commitSite, hc]
    rw [if_neg hnlt]

/-- C7 witness: the snapshot entry expired at read time, but a newer
unexpired entry was written meanwhile; the refresh result (payload 9) is
discarded and the commit-time entry (payload 7) survives. -/
theorem refreshSite_commit_guard_witness :
    ((fun s => if s = "BUFF" then some (⟨1, 10⟩ : SiteCache Nat) else none) "BUFF" =
        none ∨
      ∃ sc, (fun s => if s = "BUFF" then some (⟨1, 10⟩ : SiteCache Nat) else none)
        "BUFF" = some sc ∧ 20 > sc.untilT) ∧
    (∀ sc2, (fun s => if s = "BUFF" then some (⟨7, 100⟩ : SiteCache Nat) else none)
        "BUFF" = some sc2 → ¬ (30 : Nat) > sc2.untilT →
      (refreshSite (fun s => if s = "BUFF" then some (⟨1, 10⟩ : SiteCache Nat) else none)
        20 "BUFF" (Except.ok (⟨9, 200⟩ : SiteCache Nat) : Except String (SiteCache Nat))
        (fun s => if s = "BUFF" then some (⟨7, 100⟩ : SiteCache Nat) else none) 30).1 =
      (fun s => if s = "BUFF" then some (⟨7, 100⟩ : SiteCache Nat) else none)) :=
  ⟨Or.inr ⟨⟨1, 10⟩, by decide, by decide⟩,
    (refreshSite_commit_guard
      (fun s => if s = "BUFF" then some (⟨1, 10⟩ : SiteCache Nat) else none) 20 "BUFF"
      ⟨9, 200⟩
      (fun s => if s = "BUFF" then some (⟨7, 100⟩ : SiteCache Nat) else none) 30
      (Or.inr ⟨⟨1, 10⟩, by decide, by decide⟩)).2⟩

theorem bucketInv_new (tokensPerSecond : ℚ) (burst : Int) (now : ℚ) :
    BucketInv (NewTokenBucket tokensPerSecond burst now) := by
  have hb1 : (1 : Int) ≤ (if burst ≤ 0 then 1 else burst) := by
    by_cases hb : burst ≤ 0
    · rw [if_pos hb]
    · rw [if_neg hb]
      omega
  have hbq : (1 : ℚ) ≤ ((if burst ≤ 0 then (1 : Int) else burst : Int) : ℚ) := by
    exact_mod_cast hb1
  have hr : (0 : ℚ) <
      (if tokensPerSecond ≤ 0 then 1 / 10000000 else tokensPerSecond) := by
    by_cases h : tokensPerSecond ≤ 0
    · rw [if_pos h]
      norm_num
    · rw [if_neg h]
      exact not_le.1 h
  refine ⟨?_, ?_, ?_, ?_⟩
  · show (0 : ℚ) ≤ ((if burst ≤ 0 then (1 : Int) else burst : Int) : ℚ)
    linarith
  · exact le_rfl
  · exact hbq
  · exact hr

theorem bucketInv_refill {tb : TokenBucket} (h : BucketInv tb) (now : ℚ) :
    BucketInv (refill tb now) := by
  obtain ⟨h0, hc, h1, hr⟩ := h
  unfold refill BucketInv
  by_cases he : 0 < now - tb.last
  · rw [if_pos he]
    by_cases hclamp : tb.capacity < tb.tokens + (now - tb.last) * tb.rate
    · simp only [if_pos hclamp]
      exact ⟨le_trans (le_trans zero_le_one h1) le_rfl, le_rfl, h1, hr⟩
    · simp only [if_neg hclamp]
      refine ⟨?_, not_lt.1 hclamp, h1, hr⟩
      have : 0 ≤ (now - tb.last) * tb.rate := mul_nonneg (le_of_lt he) (le_of_lt hr)
      linarith
  · rw [if_neg he]
    exact ⟨h0, hc, h1, hr⟩

theorem bucketInv_waitStep {tb : TokenBucket} (h : BucketInv tb) (now : ℚ) :
    BucketInv (waitStep tb now).1 := by
  have h2 := bucketInv_refill h now
  obtain ⟨h0, hc, h1, hr⟩ := h2
  unfold waitStep
  by_cases hone : 1 ≤ (refill tb now).tokens
  · simp only [if_pos hone]
    refine ⟨?_, ?_, h1, hr⟩
    · show (0 : ℚ) ≤ (refill tb now).tokens - 1
      linarith
    · show (refill tb now).tokens - 1 ≤ (refill tb now).capacity
      linarith
  · simp only [if_neg hone]
    exact ⟨h0, hc, h1, hr⟩

theorem bucketInv_runSteps {tb : TokenBucket} (h : BucketInv tb) (nows : List ℚ) :
    BucketInv (runSteps tb nows) := by
  induction nows generalizing tb with
  | nil => exact h
  | cons n t ih => exact ih (bucketInv_waitStep h n)

theorem refill_capacity (tb : TokenBucket) (now : ℚ) :
    (refill tb now).capacity = tb.capacity := by
  unfold refill
  by_cases he : 0 < now - tb.last
  · rw [if_pos he]
  · rw [if_neg he]

theorem waitStep_capacity (tb : TokenBucket) (now : ℚ) :
    ((waitStep tb now).1).capacity = tb.capacity := by
  unfold waitStep
  by_cases hone : 1 ≤ (refill tb now).tokens
  · simp only [if_pos hone]
    exact refill_capacity tb now
  · simp only [if_neg hone]
    exact refill_capacity tb now

theorem runSteps_capacity (tb : TokenBucket) (nows : List ℚ) :
    (runSteps tb nows).capacity = tb.capacity := by
  induction nows generalizing tb with
  | nil => rfl
  | cons n t ih => exact (ih _).trans (waitStep_capacity tb n)

/-- After k wait passes with no elapsed time, the bucket has lost exactly
k tokens and refilled none. -/
theorem runSteps_burst (tb : TokenBucket) (t0 : ℚ) (hlast : tb.last = t0) :
    ∀ k : Nat, (k : ℚ) ≤ tb.tokens →
      (runSteps tb (List.replicate k t0)).tokens = tb.tokens - k ∧
      (runSteps tb (List.replicate k t0)).last = t0 := by
  intro k
  induction k with
  | zero => intro _; simp [runSteps, hlast]
  | succ k ih =>
    intro hk
    have hk' : (k : ℚ) ≤ tb.tokens := by push_cast at hk ⊢; linarith
    obtain ⟨iht, ihl⟩ := ih hk'
    have hrep : List.replicate (k + 1) t0 = List.replicate k t0 ++ [t0] :=
      List.replicate_succ' k t0
    have hrun : runSteps tb (List.replicate (k + 1) t0) =
        (waitStep (runSteps tb (List.replicate k t0)) t0).1 := by
      rw [hrep]
      unfold runSteps
      rw [List.foldl_append]
      rfl
    have hnorefill : refill (runSteps tb (List.replicate k t0)) t0 =
        runSteps tb (List.replicate k t0) := by
      unfold refill
      rw [ihl]
      simp
    have hge : 1 ≤ (runSteps tb (List.replicate k t0)).tokens := by
      rw [iht]
      push_cast at hk
      linarith
    rw [hrun]
    unfold waitStep
    rw [hnorefill, if_pos hge]
    refine ⟨?_, ihl⟩
    rw [iht]
    push_cast
    ring

/-! ## Claim C8: the bucket starts full and tokens stay in bounds -/

/-- C8: a bucket built by NewTokenBucket starts with tokens equal to
capacity; after any sequence of refill/acquire wait passes at arbitrary
clock readings the tokens counter stays within zero and the (constant)
capacity; and with no time elapsed each of the first capacity
acquisitions succeeds immediately, so the initial burst is unthrottled. -/
theorem tokenBucket_invariant (tokensPerSecond : ℚ) (burst : Int) (t0 : ℚ)
    (tb0 : TokenBucket) (htb : tb0 = NewTokenBucket tokensPerSecond burst t0) :
    tb0.tokens = tb0.capacity ∧
    1 ≤ tb0.capacity ∧
    (∀ nows : List ℚ,
      0 ≤ (runSteps tb0 nows).tokens ∧
      (runSteps tb0 nows).tokens ≤ tb0.capacity ∧
      (runSteps tb0 nows).capacity = tb0.capacity) ∧
    (∀ k : Nat, (k : ℚ) < tb0.capacity →
      (waitStep (runSteps tb0 (List.replicate k t0)) t0).2 = true) := by
  have hinv : BucketInv tb0 := htb ▸ bucketInv_new tokensPerSecond burst t0
  have htok : tb0.tokens = tb0.capacity := by rw [htb]; rfl
  have hlast : tb0.last = t0 := by rw [htb]; rfl
  refine ⟨htok, hinv.2.2.1, fun nows => ?_, fun k hk => ?_⟩
  · have h := bucketInv_runSteps hinv nows
    have hcap := runSteps_capacity tb0 nows
    exact ⟨h.1, hcap ▸ h.2.1, hcap⟩
  · -- the capacity is an integer, so k < capacity gives k + 1 ≤ capacity
    have hcapint : ∃ B : Int, tb0.capacity = (B : ℚ) := by
      rw [htb]
      exact ⟨if burst ≤ 0 then 1 else burst, rfl⟩
    obtain ⟨B, hB⟩ := hcapint
    have hk1 : (k : ℚ) + 1 ≤ tb0.capacity := by
      rw [hB] at hk ⊢
      have : (k : Int) < B := by exact_mod_cast hk
      have : (k : Int) + 1 ≤ B := this
      exact_mod_cast this
    have hkle : (k : ℚ) ≤ tb0.tokens := by rw [htok]; linarith
    obtain ⟨iht, ihl⟩ := runSteps_burst tb0 t0 hlast k hkle
    have hnorefill : refill (runSteps tb0 (List.replicate k t0)) t0 =
        runSteps tb0 (List.replicate k t0) := by
      unfold refill
      rw [ihl]
      simp
    have hge : 1 ≤ (runSteps tb0 (List.replicate k t0)).tokens := by
      rw [iht, htok]
      linarith
    unfold waitStep
    rw [hnorefill, if_pos hge]

/-- C8 witness at rate 2 tokens per second, burst 3, creation time 0. -/
theorem tokenBucket_invariant_witness :
    NewTokenBucket 2 3 0 = NewTokenBucket 2 3 0 ∧
    ((NewTokenBucket 2 3 0).tokens = (NewTokenBucket 2 3 0).capacity ∧
    1 ≤ (NewTokenBucket 2 3 0).capacity ∧
    (∀ nows : List ℚ,
      0 ≤ (runSteps (NewTokenBucket 2 3 0) nows).tokens ∧
      (runSteps (NewTokenBucket 2 3 0) nows).tokens ≤
        (NewTokenBucket 2 3 0).capacity ∧
      (runSteps (NewTokenBucket 2 3 0) nows).capacity =
        (NewTokenBucket 2 3 0).capacity) ∧
    (∀ k : Nat, (k : ℚ) < (NewTokenBucket 2 3 0).capacity →
      (waitStep (runSteps (NewTokenBucket 2 3 0) (List.replicate k 0)) 0).2 =
        true)) :=
  ⟨rfl, tokenBucket_invariant 2 3 0 (NewTokenBucket 2 3 0) rfl⟩

end PriceProvider

